import Mathlib

/-!
Verification of the audio-quality selection and filename-sanitization core of
the YouTube audio downloader repository.

The embedding below follows the TypeScript source:

* the audio format selector of the download route (filter to audio-only
  formats with a truthy bitrate, stable sort by bitrate descending, tiered
  preference lookup, global-best fallback);
* the two filename sanitizers (standard mode on the server route,
  compatibility mode in the client download handler);
* the request validation of both HTTP endpoints;
* the client-side pass-through conversion stage.

Strings are modelled as lists of characters; the regular-expression classes
used by the source are modelled character by character.
-/

/-- One encoding option offered by the resolver, as consumed by the selector:
the fields of the source format objects that the selection code reads. -/
structure FormatDescriptor where
  hasAudio : Bool
  hasVideo : Bool
  audioBitrate : Option Nat
deriving DecidableEq, Repr

/-- The numeric view used throughout the selector: a missing bitrate reads
as 0, mirroring audioBitrate-or-zero in the source. -/
def key (f : FormatDescriptor) : Nat := f.audioBitrate.getD 0

/-- The audio-only filtered set: formats with audio, without video, and with
a truthy (present and nonzero) audio bitrate, exactly as the two filter
calls of the route compute it. -/
def audioOnly (candidates : List FormatDescriptor) : List FormatDescriptor :=
  (candidates.filter fun f => f.hasAudio && !f.hasVideo).filter fun f => decide (key f ≠ 0)

/-- The descending-bitrate order used by the sort comparator. -/
def rdesc (a b : FormatDescriptor) : Prop := key b ≤ key a

instance : DecidableRel rdesc := fun a b => Nat.decLe (key b) (key a)

instance : IsTotal FormatDescriptor rdesc :=
  ⟨fun a b => Nat.le_total (key b) (key a)⟩

instance : IsTrans FormatDescriptor rdesc :=
  ⟨fun _ _ _ hab hbc => Nat.le_trans hbc hab⟩

/-- Stable sort by bitrate descending, the semantics of the sort call with
the descending numeric comparator. -/
def sortByBitrateDesc (l : List FormatDescriptor) : List FormatDescriptor :=
  List.insertionSort rdesc l

/-- JavaScript or-else on possibly-undefined format objects: the left value
when present, the right one otherwise. -/
def jsOr (a b : Option FormatDescriptor) : Option FormatDescriptor :=
  match a with
  | some x => some x
  | none => b

/-- First-tier predicate for the 128 class: bitrate at most 160 and at
least 96. -/
def ideal128 (f : FormatDescriptor) : Bool :=
  decide (key f ≤ 160) && decide (96 ≤ key f)

/-- Second-tier predicate for the 128 class: bitrate at most 128. -/
def second128 (f : FormatDescriptor) : Bool := decide (key f ≤ 128)

/-- First-tier predicate for the 192 class: bitrate at least 160 and at
most 256. -/
def ideal192 (f : FormatDescriptor) : Bool :=
  decide (160 ≤ key f) && decide (key f ≤ 256)

/-- Second-tier predicate for the 192 class: bitrate at least 192. -/
def second192 (f : FormatDescriptor) : Bool := decide (192 ≤ key f)

/-- The ideal-range predicate of the requested bitrate class. -/
def idealPred (targetBitrate : Nat) (f : FormatDescriptor) : Bool :=
  if targetBitrate = 128 then ideal128 f else ideal192 f

/-- The format selector of the download route: filter and sort the
candidates, then look up the tiered preferences for the requested class and
fall back to the highest-bitrate entry. A pure total function; the source
expression can not throw. -/
def select (targetBitrate : Nat) (candidates : List FormatDescriptor) : Option FormatDescriptor :=
  let audioFormats := sortByBitrateDesc (audioOnly candidates)
  let selectedFormat : Option FormatDescriptor :=
    if targetBitrate = 128 then
      jsOr (audioFormats.find? ideal128) (audioFormats.find? second128)
    else if targetBitrate = 192 then
      jsOr (audioFormats.find? ideal192) (audioFormats.find? second192)
    else none
  jsOr selectedFormat audioFormats.head?

/-- The options object the download route hands to the resolver call:
either the try-block call carrying the selection result in its format field
(the field is absent when selection produced nothing), or the catch-branch
call asking for highest audio quality filtered to audio only. -/
inductive ResolverRequest where
  | withFormat : Option FormatDescriptor → ResolverRequest
  | bestAudio : ResolverRequest
deriving DecidableEq, Repr

/-- The resolver call issued inside the try block of the download route:
the selection result is passed through in the format field unconditionally,
also when it is absent. The quality-agnostic best-audio request is issued
only by the exception handler, not on an empty selection. -/
def tryBlockRequest (targetBitrate : Nat) (candidates : List FormatDescriptor) :
    ResolverRequest :=
  ResolverRequest.withFormat (select targetBitrate candidates)

/-- The resolver call issued by the exception handler of the download
route when anything in the try block throws. -/
def catchBlockRequest : ResolverRequest := ResolverRequest.bestAudio

def fmt96 : FormatDescriptor := { hasAudio := true, hasVideo := false, audioBitrate := some 96 }

def fmt128 : FormatDescriptor := { hasAudio := true, hasVideo := false, audioBitrate := some 128 }

def fmt160 : FormatDescriptor := { hasAudio := true, hasVideo := false, audioBitrate := some 160 }

def fmt320 : FormatDescriptor := { hasAudio := true, hasVideo := false, audioBitrate := some 320 }

def fmt192 : FormatDescriptor := { hasAudio := true, hasVideo := false, audioBitrate := some 192 }

def fmtAV : FormatDescriptor := { hasAudio := true, hasVideo := true, audioBitrate := some 128 }

lemma jsOr_eq_some {a b : Option FormatDescriptor} {f : FormatDescriptor}
    (h : jsOr a b = some f) : a = some f ∨ b = some f := by
  cases a with
  | some x => exact Or.inl (by simpa [jsOr] using h)
  | none => exact Or.inr (by simpa [jsOr] using h)

lemma jsOr_some_left {b : Option FormatDescriptor} {f : FormatDescriptor} :
    jsOr (some f) b = some f := rfl

lemma mem_sortByBitrateDesc {f : FormatDescriptor} {l : List FormatDescriptor} :
    f ∈ sortByBitrateDesc l ↔ f ∈ l := List.mem_insertionSort rdesc

lemma mem_of_select_eq_some {tb : Nat} {cands : List FormatDescriptor} {f : FormatDescriptor}
    (h : select tb cands = some f) : f ∈ audioOnly cands := by
  have hmem : f ∈ sortByBitrateDesc (audioOnly cands) := by
    simp only [select] at h
    rcases jsOr_eq_some h with h1 | h1
    · by_cases h128 : tb = 128
      · rw [if_pos h128] at h1
        rcases jsOr_eq_some h1 with h2 | h2 <;> exact List.mem_of_find?_eq_some h2
      · rw [if_neg h128] at h1
        by_cases h192 : tb = 192
        · rw [if_pos h192] at h1
          rcases jsOr_eq_some h1 with h2 | h2 <;> exact List.mem_of_find?_eq_some h2
        · rw [if_neg h192] at h1
          exact absurd h1 (by simp)
    · exact List.mem_of_mem_head? (by simp [h1])
  exact mem_sortByBitrateDesc.mp hmem

lemma audioOnly_flags {f : FormatDescriptor} {cands : List FormatDescriptor}
    (h : f ∈ audioOnly cands) : f.hasAudio = true ∧ f.hasVideo = false := by
  have h1 := List.mem_filter.mp h
  have h2 := List.mem_filter.mp h1.1
  have := h2.2
  simp only [Bool.and_eq_true, Bool.not_eq_true'] at this
  exact this

/-- C1: whenever the audio-only filtered set contains an ideal-range
candidate for the requested class (96 to 160 for 128, 160 to 256 for 192),
the selector answers exactly with the first ideal-range candidate of the
descending-sorted list, and the lower-priority one-sided and global-best
fallbacks are never consulted. -/
theorem select_prefers_idealRange (tb : Nat) (cands : List FormatDescriptor)
    (htb : tb = 128 ∨ tb = 192)
    (hex : ∃ g ∈ audioOnly cands, idealPred tb g = true) :
    select tb cands = (sortByBitrateDesc (audioOnly cands)).find? (idealPred tb) ∧
      ((sortByBitrateDesc (audioOnly cands)).find? (idealPred tb)).isSome = true := by
  have hex2 : ∃ g ∈ sortByBitrateDesc (audioOnly cands), idealPred tb g = true := by
    obtain ⟨g, hg, hpg⟩ := hex
    exact ⟨g, mem_sortByBitrateDesc.mpr hg, hpg⟩
  have hsome : ((sortByBitrateDesc (audioOnly cands)).find? (idealPred tb)).isSome = true := by
    rw [List.find?_isSome]; exact hex2
  obtain ⟨f, hf⟩ := Option.isSome_iff_exists.mp hsome
  refine ⟨?_, hsome⟩
  rcases htb with h1 | h1 <;> subst h1
  · have hid : idealPred 128 = ideal128 := by funext g; simp [idealPred]
    rw [hid] at hf ⊢
    simp [select, hf, jsOr]
  · have hid : idealPred 192 = ideal192 := by funext g; simp [idealPred]
    rw [hid] at hf ⊢
    simp [select, hf, jsOr]

/-- Witness for C1 at a concrete input. -/
theorem select_prefers_idealRange_witness :
    select 128 [fmt128] = (sortByBitrateDesc (audioOnly [fmt128])).find? (idealPred 128) ∧
      ((sortByBitrateDesc (audioOnly [fmt128])).find? (idealPred 128)).isSome = true :=
  select_prefers_idealRange 128 [fmt128] (Or.inl rfl) (by decide)

/-- C2: for class 128 on the audio-only list with bitrates 96, 128, 160 and
320, the selector returns the 160 entry, the first ideal-range match of the
descending order, and not the 128 entry. -/
theorem select_128_tie_outcome :
    select 128 [fmt96, fmt128, fmt160, fmt320] = some fmt160 ∧
      select 128 [fmt96, fmt128, fmt160, fmt320] ≠ some fmt128 := by
  decide

/-- C3 counterexample: a non-empty candidate list whose only entry carries
video yields no selection at all, so the selector does not return an
audio-only candidate for every non-empty candidate list. -/
theorem select_nonempty_counterexample :
    select 128 [fmtAV] = none ∧ ([fmtAV] : List FormatDescriptor) ≠ [] := by
  decide

/-- C3 amended: whatever the selector returns satisfies hasAudio and not
hasVideo, and the selector does return a format whenever the audio-only
filtered set is non-empty; a video-containing format is never the
result. -/
theorem select_result_audio_only (tb : Nat) (cands : List FormatDescriptor) :
    (∀ f, select tb cands = some f → f.hasAudio = true ∧ f.hasVideo = false) ∧
      (audioOnly cands ≠ [] → (select tb cands).isSome = true) := by
  constructor
  · intro f hf
    exact audioOnly_flags (mem_of_select_eq_some hf)
  · intro hne
    cases hsl : sortByBitrateDesc (audioOnly cands) with
    | nil =>
        exfalso
        have hperm := List.perm_insertionSort rdesc (audioOnly cands)
        rw [sortByBitrateDesc] at hsl
        rw [hsl] at hperm
        exact hne hperm.symm.eq_nil
    | cons a t =>
        simp only [select, hsl]
        cases hsel : (if tb = 128 then
            jsOr ((a :: t).find? ideal128) ((a :: t).find? second128)
          else if tb = 192 then
            jsOr ((a :: t).find? ideal192) ((a :: t).find? second192)
          else none) with
        | some x => simp [jsOr]
        | none => simp [jsOr]

/-- Witness for C3 at a concrete input. -/
theorem select_result_audio_only_witness :
    (fmt160.hasAudio = true ∧ fmt160.hasVideo = false) ∧
      (select 128 [fmt160]).isSome = true :=
  ⟨(select_result_audio_only 128 [fmt160]).1 fmt160 (by decide),
    (select_result_audio_only 128 [fmt160]).2 (by decide)⟩

/-- C4 counterexample: on a candidate list whose audio-only filtered set is
empty the selector does signal none, but the try block then still issues
its explicit-format resolver call, with an absent format field; it does not
issue the quality-agnostic best-audio request, which only the exception
handler issues. -/
theorem emptySelection_not_bestAudio :
    select 128 [fmtAV] = none ∧
      tryBlockRequest 128 [fmtAV] = ResolverRequest.withFormat none ∧
      tryBlockRequest 128 [fmtAV] ≠ catchBlockRequest := by
  decide

/-- C4 amended: on an empty audio-only filtered set the selector signals
none for every requested class (being a pure total function it can not
throw, and none is never a video-containing format); the try block then
passes the absent format through to its resolver call, and the
quality-agnostic best-audio request is left to the exception handler. -/
theorem select_empty_filtered (tb : Nat) (cands : List FormatDescriptor)
    (h : audioOnly cands = []) :
    select tb cands = none ∧
      tryBlockRequest tb cands = ResolverRequest.withFormat none := by
  have hsl : sortByBitrateDesc (audioOnly cands) = [] := by
    rw [h]; rfl
  have hsel : select tb cands = none := by
    simp only [select, hsl]
    by_cases h128 : tb = 128
    · simp [h128, jsOr]
    · by_cases h192 : tb = 192 <;> simp [h128, h192, jsOr]
  exact ⟨hsel, by rw [tryBlockRequest, hsel]⟩

/-- Witness for the amended C4 at a concrete input. -/
theorem select_empty_filtered_witness :
    select 128 [fmtAV] = none ∧
      tryBlockRequest 128 [fmtAV] = ResolverRequest.withFormat none :=
  select_empty_filtered 128 [fmtAV] (by decide)

/-- C10: for class 192, whenever the one-sided second-tier lookup (first
candidate with bitrate at least 192 in descending order) finds a format,
that format is the head of the sorted list, the maximum-bitrate element of
the filtered set, which is exactly what the global-best fallback would
return. -/
theorem secondTier192_eq_globalBest (cands : List FormatDescriptor) (f : FormatDescriptor)
    (h : (sortByBitrateDesc (audioOnly cands)).find? second192 = some f) :
    (sortByBitrateDesc (audioOnly cands)).head? = some f ∧
      f ∈ audioOnly cands ∧ ∀ g ∈ audioOnly cands, key g ≤ key f := by
  cases hsl : sortByBitrateDesc (audioOnly cands) with
  | nil => rw [hsl] at h; simp at h
  | cons a t =>
      rw [hsl] at h
      have hsorted : List.Sorted rdesc (a :: t) := by
        rw [← hsl]; exact List.sorted_insertionSort rdesc (audioOnly cands)
      have hmax : ∀ b ∈ t, rdesc a b := List.rel_of_sorted_cons hsorted
      have hpf : second192 f = true := List.find?_some h
      have h192 : 192 ≤ key f := by simpa [second192] using hpf
      have hfa : f = a := by
        rcases List.mem_cons.mp (List.mem_of_find?_eq_some h) with h1 | h1
        · exact h1
        · have hle : key f ≤ key a := hmax f h1
          have hpa : second192 a = true := by simp only [second192, decide_eq_true_eq]; omega
          rw [List.find?_cons_of_pos t hpa] at h
          exact (Option.some_inj.mp h).symm
      subst hfa
      refine ⟨rfl, ?_, ?_⟩
      · exact mem_sortByBitrateDesc.mp (by rw [hsl]; exact List.mem_cons_self f t)
      · intro g hg
        have hg2 : g ∈ (f :: t) := by
          rw [← hsl]; exact mem_sortByBitrateDesc.mpr hg
        rcases List.mem_cons.mp hg2 with h1 | h1
        · rw [h1]
        · exact hmax g h1

/-- Witness for C10 at a concrete input. -/
theorem secondTier192_eq_globalBest_witness :
    (sortByBitrateDesc (audioOnly [fmt192])).head? = some fmt192 :=
  (secondTier192_eq_globalBest [fmt192] fmt192 (by decide)).1

/-- Word characters of the regex character class: ASCII letters, digits and
the underscore. -/
def isWordChar (c : Char) : Bool :=
  decide (65 ≤ c.toNat ∧ c.toNat ≤ 90) || decide (97 ≤ c.toNat ∧ c.toNat ≤ 122) ||
    decide (48 ≤ c.toNat ∧ c.toNat ≤ 57) || decide (c.toNat = 95)

/-- Whitespace characters of the regex whitespace class and of the string
trim method: tab through carriage return, space, no-break space, ogham space
mark, the en-quad to hair-space range, line and paragraph separators, narrow
no-break space, medium mathematical space, ideographic space and the byte
order mark. -/
def isJsSpace (c : Char) : Bool :=
  decide (9 ≤ c.toNat ∧ c.toNat ≤ 13) || decide (c.toNat = 32) || decide (c.toNat = 160) ||
    decide (c.toNat = 5760) || decide (8192 ≤ c.toNat ∧ c.toNat ≤ 8202) ||
    decide (c.toNat = 8232) || decide (c.toNat = 8233) || decide (c.toNat = 8239) ||
    decide (c.toNat = 8287) || decide (c.toNat = 12288) || decide (c.toNat = 65279)

/-- The underscore test used by the compatibility-mode regexes. -/
def isUnd (c : Char) : Bool := c == '_'

/-- Replacement of every maximal run of characters matching the class with a
single replacement character: the semantics of a global one-or-more regex
replace. The flag records whether the previous character was in a run. -/
def collapseRunsAux (p : Char → Bool) (rep : Char) : Bool → List Char → List Char
  | _, [] => []
  | inRun, c :: cs =>
    if p c then
      if inRun then collapseRunsAux p rep true cs
      else rep :: collapseRunsAux p rep true cs
    else c :: collapseRunsAux p rep false cs

/-- Collapse maximal runs of the class into the replacement character. -/
def collapseRuns (p : Char → Bool) (rep : Char) (s : List Char) : List Char :=
  collapseRunsAux p rep false s

/-- The string trim method: whitespace removed from both ends. -/
def jsTrim (s : List Char) : List Char :=
  (((s.dropWhile isJsSpace).reverse).dropWhile isJsSpace).reverse

/-- Removal of a single leading underscore, the caret-underscore half of the
anchored trim regex. -/
def dropLeadUnd (s : List Char) : List Char :=
  match s with
  | c :: cs => if c == '_' then cs else c :: cs
  | [] => []

/-- Removal of a single trailing underscore, the underscore-dollar half of
the anchored trim regex. -/
def dropTrailUnd : List Char → List Char
  | [] => []
  | [c] => if c == '_' then [] else [c]
  | c :: d :: rest => c :: dropTrailUnd (d :: rest)

/-- The anchored trim regex: one leading and one trailing underscore
removed. -/
def trimUnd (s : List Char) : List Char := dropTrailUnd (dropLeadUnd s)

/-- The default title constant substituted for an empty result. -/
def defaultTitle : List Char := ['y', 'o', 'u', 't', 'u', 'b', 'e', '_', 'a', 'u', 'd', 'i', 'o']

/-- The standard-mode keep filter: the complement of the stripped class, so
word characters, whitespace and the hyphen survive. -/
def stripStd (s : List Char) : List Char :=
  s.filter fun c => isWordChar c || isJsSpace c || c == '-'

/-- The compatibility-mode keep filter: word characters and whitespace
survive; hyphens are stripped. -/
def stripCompat (s : List Char) : List Char :=
  s.filter fun c => isWordChar c || isJsSpace c

/-- Standard-mode sanitizer of the server route: strip, collapse whitespace
runs to an underscore, trim whitespace, and substitute the default when the
result is empty. -/
def sanitizeStandard (s : List Char) : List Char :=
  let r := jsTrim (collapseRuns isJsSpace '_' (stripStd s))
  if r.isEmpty then defaultTitle else r

/-- Compatibility-mode sanitizer of the client download handler: strip,
collapse whitespace runs to an underscore, collapse underscore runs, remove
one leading and one trailing underscore, truncate to 50 characters, and
substitute the default when the result is empty. -/
def sanitizeCompat (s : List Char) : List Char :=
  let r := (trimUnd (collapseRuns isUnd '_'
    (collapseRuns isJsSpace '_' (stripCompat s)))).take 50
  if r.isEmpty then defaultTitle else r

/-- ASCII letter test, for the claim-side comparison definition. -/
def isAsciiLetter (c : Char) : Bool :=
  decide (65 ≤ c.toNat ∧ c.toNat ≤ 90) || decide (97 ≤ c.toNat ∧ c.toNat ≤ 122)

/-- ASCII digit test, for the claim-side comparison definition. -/
def isAsciiDigit (c : Char) : Bool := decide (48 ≤ c.toNat ∧ c.toNat ≤ 57)

/-- Claim-side comparison definition, following the words of the standard
mode claim: strip every character that is not a letter, digit, whitespace,
or hyphen; collapse whitespace runs to a single underscore; trim leading and
trailing underscores; substitute the default when the result is empty. -/
def specStandardSanitize (s : List Char) : List Char :=
  let kept := s.filter fun c => isAsciiLetter c || isAsciiDigit c || isJsSpace c || c == '-'
  let collapsed := collapseRuns isJsSpace '_' kept
  let trimmed := ((collapsed.dropWhile isUnd).reverse.dropWhile isUnd).reverse
  if trimmed.isEmpty then defaultTitle else trimmed

lemma isWordChar_not_space {c : Char} (h : isWordChar c = true) : isJsSpace c = false := by
  simp only [isWordChar, Bool.or_eq_true, decide_eq_true_eq] at h
  simp only [isJsSpace, Bool.or_eq_false_iff, decide_eq_false_iff_not]
  omega

lemma hyphen_not_space : isJsSpace '-' = false := by decide

lemma und_word : isWordChar '_' = true := by decide

lemma mem_collapseRunsAux {p : Char → Bool} {rep : Char} {c : Char} :
    ∀ {s : List Char} {b : Bool}, c ∈ collapseRunsAux p rep b s →
      c = rep ∨ (c ∈ s ∧ p c = false) := by
  intro s
  induction s with
  | nil => intro b h; simp [collapseRunsAux] at h
  | cons a as ih =>
    intro b h
    by_cases hpa : p a = true
    · rw [collapseRunsAux] at h
      simp only [hpa, if_true] at h
      cases b with
      | true =>
          rcases ih h with h1 | h1
          · exact Or.inl h1
          · exact Or.inr ⟨List.mem_cons_of_mem a h1.1, h1.2⟩
      | false =>
          rw [if_neg (by simp)] at h
          rcases List.mem_cons.mp h with h1 | h1
          · exact Or.inl h1
          · rcases ih h1 with h2 | h2
            · exact Or.inl h2
            · exact Or.inr ⟨List.mem_cons_of_mem a h2.1, h2.2⟩
    · rw [collapseRunsAux] at h
      simp only [hpa] at h
      rw [if_neg (by simp [hpa])] at h
      rcases List.mem_cons.mp h with h1 | h1
      · subst h1; exact Or.inr ⟨List.mem_cons_self c as, by simpa using hpa⟩
      · rcases ih h1 with h2 | h2
        · exact Or.inl h2
        · exact Or.inr ⟨List.mem_cons_of_mem a h2.1, h2.2⟩

lemma mem_collapseRuns {p : Char → Bool} {rep : Char} {c : Char} {s : List Char}
    (h : c ∈ collapseRuns p rep s) : c = rep ∨ (c ∈ s ∧ p c = false) :=
  mem_collapseRunsAux h

lemma collapseRunsAux_id {p : Char → Bool} {rep : Char} :
    ∀ {s : List Char} {b : Bool}, (∀ c ∈ s, p c = false) →
      collapseRunsAux p rep b s = s := by
  intro s
  induction s with
  | nil => intro b _; rfl
  | cons a as ih =>
    intro b h
    have hpa : p a = false := h a (List.mem_cons_self a as)
    rw [collapseRunsAux]
    rw [if_neg (by simp [hpa])]
    rw [ih fun c hc => h c (List.mem_cons_of_mem a hc)]

lemma collapseRuns_id_of_no_match {p : Char → Bool} {rep : Char} {s : List Char}
    (h : ∀ c ∈ s, p c = false) : collapseRuns p rep s = s :=
  collapseRunsAux_id h

lemma jsTrim_id {s : List Char} (h : ∀ c ∈ s, isJsSpace c = false) : jsTrim s = s := by
  have h1 : s.dropWhile isJsSpace = s := by
    cases s with
    | nil => rfl
    | cons a as =>
        rw [List.dropWhile_cons]
        rw [if_neg (by simp [h a (List.mem_cons_self a as)])]
  have h2 : s.reverse.dropWhile isJsSpace = s.reverse := by
    cases hs : s.reverse with
    | nil => rfl
    | cons a as =>
        rw [List.dropWhile_cons]
        have ha : a ∈ s := by
          rw [← List.mem_reverse, hs]; exact List.mem_cons_self a as
        rw [if_neg (by simp [h a ha])]
  rw [jsTrim, h1, h2, List.reverse_reverse]

lemma mem_of_mem_jsTrim {c : Char} {s : List Char} (h : c ∈ jsTrim s) : c ∈ s := by
  rw [jsTrim, List.mem_reverse] at h
  have h1 := (List.dropWhile_sublist isJsSpace).subset h
  rw [List.mem_reverse] at h1
  exact (List.dropWhile_sublist isJsSpace).subset h1

lemma mem_of_mem_dropLeadUnd {c : Char} {s : List Char} (h : c ∈ dropLeadUnd s) : c ∈ s := by
  cases s with
  | nil => simp [dropLeadUnd] at h
  | cons a as =>
      rw [dropLeadUnd] at h
      by_cases ha : a == '_'
      · rw [if_pos ha] at h; exact List.mem_cons_of_mem a h
      · rwa [if_neg ha] at h

lemma dropTrailUnd_front : ∀ s : List Char, dropTrailUnd s <+: s
  | [] => List.prefix_refl []
  | [c] => by
      rw [dropTrailUnd]
      by_cases hc : c == '_'
      · rw [if_pos hc]; exact ⟨[c], rfl⟩
      · rw [if_neg hc]
  | c :: d :: rest => by
      rw [dropTrailUnd]
      obtain ⟨t, ht⟩ := dropTrailUnd_front (d :: rest)
      exact ⟨t, by rw [List.cons_append, ht]⟩

lemma mem_of_mem_dropTrailUnd {c : Char} {s : List Char} (h : c ∈ dropTrailUnd s) : c ∈ s :=
  (dropTrailUnd_front s).subset h

lemma mem_of_mem_trimUnd {c : Char} {s : List Char} (h : c ∈ trimUnd s) : c ∈ s :=
  mem_of_mem_dropLeadUnd (mem_of_mem_dropTrailUnd h)

/-- Adjacent characters never both match the class: the shape left behind by
a run collapse. -/
def relP (p : Char → Bool) (a b : Char) : Prop := p a = false ∨ p b = false

lemma collapseRunsAux_head_true {p : Char → Bool} {rep : Char} :
    ∀ {s : List Char} {c : Char}, (collapseRunsAux p rep true s).head? = some c →
      p c = false := by
  intro s
  induction s with
  | nil => intro c h; simp [collapseRunsAux] at h
  | cons a as ih =>
    intro c h
    by_cases hpa : p a = true
    · rw [collapseRunsAux, if_pos hpa, if_pos rfl] at h
      exact ih h
    · rw [collapseRunsAux, if_neg hpa] at h
      simp only [List.head?_cons, Option.some_inj] at h
      subst h
      simpa using hpa

lemma chain_collapseRunsAux {p : Char → Bool} {rep : Char} :
    ∀ {s : List Char} {b : Bool}, List.Chain' (relP p) (collapseRunsAux p rep b s) := by
  intro s
  induction s with
  | nil => intro b; simp [collapseRunsAux]
  | cons a as ih =>
    intro b
    by_cases hpa : p a = true
    · cases b with
      | true =>
          rw [collapseRunsAux, if_pos hpa, if_pos rfl]
          exact ih
      | false =>
          rw [collapseRunsAux, if_pos hpa, if_neg (by simp)]
          rw [List.chain'_cons']
          exact ⟨fun y hy => Or.inr (collapseRunsAux_head_true hy), ih⟩
    · rw [collapseRunsAux, if_neg hpa]
      rw [List.chain'_cons']
      exact ⟨fun y _ => Or.inl (by simpa using hpa), ih⟩

lemma chain_collapseRuns {p : Char → Bool} {rep : Char} {s : List Char} :
    List.Chain' (relP p) (collapseRuns p rep s) :=
  chain_collapseRunsAux

lemma collapseRunsAux_true_eq_false {p : Char → Bool} {rep : Char} {s : List Char}
    (h : ∀ c, s.head? = some c → p c = false) :
    collapseRunsAux p rep true s = collapseRunsAux p rep false s := by
  cases s with
  | nil => rfl
  | cons a as =>
      have hpa : p a = false := h a rfl
      rw [collapseRunsAux, collapseRunsAux, if_neg (by simp [hpa]), if_neg (by simp [hpa])]

lemma collapseRuns_id_of_chain {p : Char → Bool} {rep : Char} :
    ∀ {s : List Char}, List.Chain' (relP p) s → (∀ c ∈ s, p c = true → c = rep) →
      collapseRuns p rep s = s := by
  intro s
  induction s with
  | nil => intro _ _; rfl
  | cons a as ih =>
    intro hchain hrep
    have htail : List.Chain' (relP p) as := hchain.tail
    have hrtail : ∀ c ∈ as, p c = true → c = rep :=
      fun c hc => hrep c (List.mem_cons_of_mem a hc)
    by_cases hpa : p a = true
    · have ha : a = rep := hrep a (List.mem_cons_self a as) hpa
      have hhead : ∀ c, as.head? = some c → p c = false := by
        intro c hc
        have := (List.chain'_cons'.mp hchain).1 c hc
        rcases this with h1 | h1
        · rw [hpa] at h1; exact absurd h1 (by simp)
        · exact h1
      rw [collapseRuns, collapseRunsAux, if_pos hpa, if_neg (by simp)]
      rw [collapseRunsAux_true_eq_false hhead]
      rw [show collapseRunsAux p rep false as = collapseRuns p rep as from rfl]
      rw [ih htail hrtail, ha]
    · rw [collapseRuns, collapseRunsAux, if_neg hpa]
      rw [show collapseRunsAux p rep false as = collapseRuns p rep as from rfl]
      rw [ih htail hrtail]

lemma dropLeadUnd_cases (s : List Char) :
    dropLeadUnd s = s ∨ dropLeadUnd s = s.tail := by
  cases s with
  | nil => exact Or.inl rfl
  | cons a as =>
      by_cases ha : a == '_'
      · exact Or.inr (by rw [dropLeadUnd, if_pos ha]; rfl)
      · exact Or.inl (by rw [dropLeadUnd, if_neg ha])

lemma chain_dropLeadUnd {R : Char → Char → Prop} {s : List Char}
    (h : List.Chain' R s) : List.Chain' R (dropLeadUnd s) := by
  rcases dropLeadUnd_cases s with h1 | h1
  · rwa [h1]
  · rw [h1]
    cases s with
    | nil => simp
    | cons a as => exact h.tail

lemma chain_dropTrailUnd {R : Char → Char → Prop} {s : List Char}
    (h : List.Chain' R s) : List.Chain' R (dropTrailUnd s) :=
  h.prefix (dropTrailUnd_front s)

lemma chain_take {R : Char → Char → Prop} {s : List Char} {n : Nat}
    (h : List.Chain' R s) : List.Chain' R (s.take n) :=
  h.prefix (List.take_prefix n s)

lemma head?_of_front {l₁ l₂ : List Char} {c : Char} (h : l₁ <+: l₂)
    (hc : l₁.head? = some c) : l₂.head? = some c := by
  obtain ⟨t, rfl⟩ := h
  cases l₁ with
  | nil => simp at hc
  | cons a as => simpa using hc

lemma head?_dropLeadUnd {s : List Char} {c : Char}
    (hchain : List.Chain' (relP isUnd) s)
    (h : (dropLeadUnd s).head? = some c) : isUnd c = false := by
  cases s with
  | nil => simp [dropLeadUnd] at h
  | cons a as =>
      by_cases ha : a == '_'
      · rw [dropLeadUnd, if_pos ha] at h
        have := (List.chain'_cons'.mp hchain).1 c h
        rcases this with h1 | h1
        · exfalso
          rw [show a = '_' from by simpa using ha] at h1
          simp [isUnd] at h1
        · exact h1
      · rw [dropLeadUnd, if_neg ha] at h
        simp only [List.head?_cons, Option.some_inj] at h
        subst h
        simpa [isUnd] using ha

lemma dropLeadUnd_id {s : List Char}
    (h : ∀ c, s.head? = some c → isUnd c = false) : dropLeadUnd s = s := by
  cases s with
  | nil => rfl
  | cons a as =>
      have ha : isUnd a = false := h a rfl
      rw [dropLeadUnd, if_neg (by simpa [isUnd] using ha)]

lemma dropTrailUnd_id : ∀ {s : List Char},
    (∀ c, s.getLast? = some c → isUnd c = false) → dropTrailUnd s = s := by
  intro s
  match s with
  | [] => intro _; rfl
  | [c] =>
      intro h
      have hc : isUnd c = false := h c rfl
      rw [dropTrailUnd, if_neg (by simpa [isUnd] using hc)]
  | c :: d :: rest =>
      intro h
      rw [dropTrailUnd]
      rw [dropTrailUnd_id fun e he => h e (by rwa [List.getLast?_cons_cons])]

lemma stripCompat_chars {c : Char} {s : List Char} (h : c ∈ stripCompat s) :
    (isWordChar c || isJsSpace c) = true :=
  (List.mem_filter.mp h).2

lemma stripStd_chars {c : Char} {s : List Char} (h : c ∈ stripStd s) :
    (isWordChar c || isJsSpace c || (c == '-')) = true :=
  (List.mem_filter.mp h).2

lemma compatCore_chars {c : Char} {s : List Char}
    (h : c ∈ collapseRuns isUnd '_' (collapseRuns isJsSpace '_' (stripCompat s))) :
    isWordChar c = true := by
  rcases mem_collapseRuns h with h1 | h1
  · rw [h1]; exact und_word
  · rcases mem_collapseRuns h1.1 with h2 | h2
    · rw [h2]; exact und_word
    · have := stripCompat_chars h2.1
      rcases Bool.or_eq_true_iff.mp this with h3 | h3
      · exact h3
      · rw [h2.2] at h3; exact absurd h3 (by simp)

lemma sanitizeCompat_word {x : List Char} :
    ∀ c ∈ sanitizeCompat x, isWordChar c = true := by
  intro c hc
  simp only [sanitizeCompat] at hc
  by_cases hr : ((trimUnd (collapseRuns isUnd '_'
      (collapseRuns isJsSpace '_' (stripCompat x)))).take 50).isEmpty
  · rw [if_pos hr] at hc
    revert hc
    revert c
    decide
  · rw [if_neg hr] at hc
    exact compatCore_chars (mem_of_mem_trimUnd ((List.take_subset 50 _) hc))

lemma sanitizeCompat_length {x : List Char} :
    1 ≤ (sanitizeCompat x).length ∧ (sanitizeCompat x).length ≤ 50 := by
  simp only [sanitizeCompat]
  by_cases hr : ((trimUnd (collapseRuns isUnd '_'
      (collapseRuns isJsSpace '_' (stripCompat x)))).take 50).isEmpty
  · rw [if_pos hr]; decide
  · rw [if_neg hr]
    constructor
    · have : (trimUnd (collapseRuns isUnd '_'
          (collapseRuns isJsSpace '_' (stripCompat x)))).take 50 ≠ [] := by
        intro hnil
        rw [hnil] at hr
        exact hr rfl
      exact Nat.succ_le_of_lt (List.length_pos.mpr this)
    · exact List.length_take_le 50 _

lemma sanitizeStandard_chars {x : List Char} :
    ∀ c ∈ sanitizeStandard x, isWordChar c = true ∨ c = '-' := by
  intro c hc
  simp only [sanitizeStandard] at hc
  by_cases hr : (jsTrim (collapseRuns isJsSpace '_' (stripStd x))).isEmpty
  · rw [if_pos hr] at hc
    revert hc
    revert c
    decide
  · rw [if_neg hr] at hc
    have h1 := mem_of_mem_jsTrim hc
    rcases mem_collapseRuns h1 with h2 | h2
    · rw [h2]; exact Or.inl und_word
    · have := stripStd_chars h2.1
      rcases Bool.or_eq_true_iff.mp this with h3 | h3
      · rcases Bool.or_eq_true_iff.mp h3 with h4 | h4
        · exact Or.inl h4
        · rw [h2.2] at h4; exact absurd h4 (by simp)
      · exact Or.inr (by simpa using h3)

lemma sanitizeStandard_no_space {x : List Char} :
    ∀ c ∈ sanitizeStandard x, isJsSpace c = false := by
  intro c hc
  rcases sanitizeStandard_chars c hc with h | h
  · exact isWordChar_not_space h
  · rw [h]; exact hyphen_not_space

lemma sanitizeStandard_ne_nil (x : List Char) : sanitizeStandard x ≠ [] := by
  simp only [sanitizeStandard]
  by_cases hr : (jsTrim (collapseRuns isJsSpace '_' (stripStd x))).isEmpty
  · rw [if_pos hr]; decide
  · rw [if_neg hr]
    intro hnil
    rw [hnil] at hr
    exact hr rfl

/-- C7: compatibility-mode sanitization always yields between 1 and 50
characters, all from the word class (letters, digits, underscore), with the
default substituted when the pipeline result is empty. -/
theorem sanitizeCompat_shape : ∀ s : List Char,
    1 ≤ (sanitizeCompat s).length ∧ (sanitizeCompat s).length ≤ 50 ∧
      ∀ c ∈ sanitizeCompat s, isWordChar c = true :=
  fun _ => ⟨sanitizeCompat_length.1, sanitizeCompat_length.2, sanitizeCompat_word⟩

/-- Witness for C7 at a concrete input. -/
theorem sanitizeCompat_shape_witness : isWordChar 'a' = true :=
  (sanitizeCompat_shape ['a']).2.2 'a' (by decide)

/-- C5 counterexample: on a title consisting of a letter between spaces the
standard-mode sanitizer keeps the leading and trailing underscores produced
by whitespace collapsing, while the claimed algorithm trims them; the
claimed algorithm therefore disagrees with the code. -/
theorem sanitizeStandard_deviates_from_claim :
    sanitizeStandard [' ', 'a', ' '] = ['_', 'a', '_'] ∧
      specStandardSanitize [' ', 'a', ' '] = ['a'] ∧
      sanitizeStandard [' ', 'a', ' '] ≠ specStandardSanitize [' ', 'a', ' '] := by
  decide

/-- C5 amended: standard mode strips every character outside word
characters, whitespace and the hyphen (underscores are word characters and
survive), collapses whitespace runs to a single underscore, and its final
trim removes only whitespace, which is provably a no-op after the collapse,
so leading and trailing underscores remain; the default is substituted when
the result is empty, so the output is never empty and contains only word
characters and hyphens. -/
theorem sanitizeStandard_amended : ∀ s : List Char,
    sanitizeStandard s =
      (if (collapseRuns isJsSpace '_' (stripStd s)).isEmpty then defaultTitle
       else collapseRuns isJsSpace '_' (stripStd s)) ∧
      sanitizeStandard s ≠ [] ∧
      ∀ c ∈ sanitizeStandard s, isWordChar c = true ∨ c = '-' := by
  intro s
  have hnospace : ∀ c ∈ collapseRuns isJsSpace '_' (stripStd s), isJsSpace c = false := by
    intro c hc
    rcases mem_collapseRuns hc with h1 | h1
    · rw [h1]; decide
    · exact h1.2
  have htrim : jsTrim (collapseRuns isJsSpace '_' (stripStd s)) =
      collapseRuns isJsSpace '_' (stripStd s) := jsTrim_id hnospace
  refine ⟨?_, sanitizeStandard_ne_nil s, sanitizeStandard_chars⟩
  show (if (jsTrim (collapseRuns isJsSpace '_' (stripStd s))).isEmpty then defaultTitle
        else jsTrim (collapseRuns isJsSpace '_' (stripStd s))) =
      (if (collapseRuns isJsSpace '_' (stripStd s)).isEmpty then defaultTitle
       else collapseRuns isJsSpace '_' (stripStd s))
  rw [htrim]

/-- Witness for the amended C5 at a concrete input. -/
theorem sanitizeStandard_amended_witness : isWordChar 'a' = true ∨ 'a' = '-' :=
  (sanitizeStandard_amended ['a']).2.2 'a' (by decide)

/-- C6 counterexample: compatibility mode is not idempotent; when the
50-character truncation cuts a title right after a collapsed separator the
output ends in an underscore, and a second application removes it. -/
theorem sanitizeCompat_not_idempotent :
    sanitizeCompat (sanitizeCompat (List.replicate 49 'a' ++ [' ', 'b'])) ≠
      sanitizeCompat (List.replicate 49 'a' ++ [' ', 'b']) := by
  decide

/-- C6 amended: the standard-mode sanitizer is idempotent on every input;
the compatibility-mode sanitizer is idempotent on every input whose
sanitized form does not end in an underscore, the only exception being a
truncation that leaves a trailing underscore for the second pass to
remove. -/
theorem sanitize_idempotent_amended :
    (∀ x : List Char, sanitizeStandard (sanitizeStandard x) = sanitizeStandard x) ∧
      (∀ x : List Char, (sanitizeCompat x).getLast? ≠ some '_' →
        sanitizeCompat (sanitizeCompat x) = sanitizeCompat x) := by
  constructor
  · intro x
    have hnospace := sanitizeStandard_no_space (x := x)
    have hstrip : stripStd (sanitizeStandard x) = sanitizeStandard x := by
      apply List.filter_eq_self.mpr
      intro c hc
      rcases sanitizeStandard_chars c hc with h | h
      · simp [h]
      · simp [h]
    have hcoll : collapseRuns isJsSpace '_' (sanitizeStandard x) = sanitizeStandard x :=
      collapseRuns_id_of_no_match hnospace
    have htrim : jsTrim (sanitizeStandard x) = sanitizeStandard x := jsTrim_id hnospace
    have hne : ¬(sanitizeStandard x).isEmpty = true := by
      rw [List.isEmpty_iff]
      exact sanitizeStandard_ne_nil x
    show (if (jsTrim (collapseRuns isJsSpace '_' (stripStd (sanitizeStandard x)))).isEmpty
          then defaultTitle
          else jsTrim (collapseRuns isJsSpace '_' (stripStd (sanitizeStandard x)))) =
        sanitizeStandard x
    rw [hstrip, hcoll, htrim, if_neg hne]
  · intro x hlast
    by_cases hr : ((trimUnd (collapseRuns isUnd '_'
        (collapseRuns isJsSpace '_' (stripCompat x)))).take 50).isEmpty
    · have hy : sanitizeCompat x = defaultTitle := by
        simp only [sanitizeCompat]
        rw [if_pos hr]
      rw [hy]
      decide
    · have hy : sanitizeCompat x = (trimUnd (collapseRuns isUnd '_'
          (collapseRuns isJsSpace '_' (stripCompat x)))).take 50 := by
        simp only [sanitizeCompat]
        rw [if_neg hr]
      have hword : ∀ c ∈ sanitizeCompat x, isWordChar c = true := sanitizeCompat_word
      have hnospace : ∀ c ∈ sanitizeCompat x, isJsSpace c = false :=
        fun c hc => isWordChar_not_space (hword c hc)
      have hchain : List.Chain' (relP isUnd) (sanitizeCompat x) := by
        rw [hy]
        exact chain_take (chain_dropTrailUnd (chain_dropLeadUnd chain_collapseRuns))
      have hhead : ∀ c, (sanitizeCompat x).head? = some c → isUnd c = false := by
        intro c hc
        rw [hy] at hc
        have h1 := head?_of_front (List.take_prefix _ _) hc
        have h2 := head?_of_front (dropTrailUnd_front _) h1
        exact head?_dropLeadUnd chain_collapseRuns h2
      have hlast2 : ∀ c, (sanitizeCompat x).getLast? = some c → isUnd c = false := by
        intro c hc
        have hcu : c ≠ '_' := by
          intro hcu
          rw [hcu] at hc
          exact hlast hc
        simpa [isUnd] using hcu
      have hstrip : stripCompat (sanitizeCompat x) = sanitizeCompat x :=
        List.filter_eq_self.mpr fun c hc => by simp [hword c hc]
      have hcws : collapseRuns isJsSpace '_' (sanitizeCompat x) = sanitizeCompat x :=
        collapseRuns_id_of_no_match hnospace
      have hcund : collapseRuns isUnd '_' (sanitizeCompat x) = sanitizeCompat x :=
        collapseRuns_id_of_chain hchain fun c _ hcu => by simpa [isUnd] using hcu
      have htrimu : trimUnd (sanitizeCompat x) = sanitizeCompat x := by
        rw [trimUnd, dropLeadUnd_id hhead, dropTrailUnd_id hlast2]
      have htake : (sanitizeCompat x).take 50 = sanitizeCompat x := by
        apply List.take_of_length_le
        rw [hy]
        exact List.length_take_le 50 _
      have hne : ¬(sanitizeCompat x).isEmpty = true := by
        rw [hy]
        exact hr
      show (if ((trimUnd (collapseRuns isUnd '_'
            (collapseRuns isJsSpace '_' (stripCompat (sanitizeCompat x))))).take 50).isEmpty
          then defaultTitle
          else (trimUnd (collapseRuns isUnd '_'
            (collapseRuns isJsSpace '_' (stripCompat (sanitizeCompat x))))).take 50) =
        sanitizeCompat x
      rw [hstrip, hcws, hcund, htrimu, htake, if_neg hne]

/-- Witness for the amended C6 at a concrete input. -/
theorem sanitize_idempotent_amended_witness :
    sanitizeCompat (sanitizeCompat ['a']) = sanitizeCompat ['a'] :=
  sanitize_idempotent_amended.2 ['a'] (by decide)

/-- The parsed request body of the download route; absent fields read as
none, and the destructuring defaults (128 and 22050) apply only to absent
fields. -/
structure DownloadBody where
  url : Option String
  bitrate : Option String
  sampleRate : Option String
deriving DecidableEq, Repr

/-- What a handler does next: answer immediately with a status and an error
message, or go on to call the resolver for the given url. -/
inductive HandlerStep where
  | respond : Nat → String → HandlerStep
  | callResolver : String → HandlerStep
deriving DecidableEq, Repr

/-- JavaScript falsiness of the url field: absent or empty. -/
def jsFalsyStr : Option String → Bool
  | none => true
  | some s => s.isEmpty

def urlRequiredMsg : String := "URL is required"

def invalidBitrateMsg : String := "Invalid bitrate. Only 128 and 192 kbps are supported."

def invalidSampleRateMsg : String :=
  "Invalid sample rate. Only 16000, 22050, and 44100 Hz are supported."

def invalidUrlMsg : String := "Invalid YouTube URL"

/-- The validation prefix of the download route handler, parametrized by the
url-recognition predicate of the resolver library: reject a falsy url, then
an out-of-enum bitrate, then an out-of-enum sample rate, then an
unrecognized url, each with its own 400 message, and only then call the
resolver. -/
def downloadValidate (validURL : String → Bool) (b : DownloadBody) : HandlerStep :=
  let bitrate := b.bitrate.getD "128"
  let sampleRate := b.sampleRate.getD "22050"
  if jsFalsyStr b.url then HandlerStep.respond 400 urlRequiredMsg
  else if !(bitrate == "128" || bitrate == "192") then
    HandlerStep.respond 400 invalidBitrateMsg
  else if !(sampleRate == "16000" || sampleRate == "22050" || sampleRate == "44100") then
    HandlerStep.respond 400 invalidSampleRateMsg
  else if !validURL (b.url.getD "") then HandlerStep.respond 400 invalidUrlMsg
  else HandlerStep.callResolver (b.url.getD "")

/-- The validation prefix of the metadata test route handler: reject a falsy
url, then an unrecognized url, each with a 400, and only then call the
resolver. -/
def testValidate (validURL : String → Bool) (url : Option String) : HandlerStep :=
  if jsFalsyStr url then HandlerStep.respond 400 urlRequiredMsg
  else if !validURL (url.getD "") then HandlerStep.respond 400 invalidUrlMsg
  else HandlerStep.callResolver (url.getD "")

/-- C8: for every parsed body, a missing or empty url yields the specific
400 response with the url-required message on both endpoints (never a 500
and never a resolver call); on the download route an out-of-enum bitrate and
an out-of-enum sample rate each yield their own distinct 400 message; and
all three messages are pairwise distinct. The statements hold for every
url-recognition predicate, so each rejection is decided before the resolver
is consulted. -/
theorem validation_contract (validURL : String → Bool) (b : DownloadBody)
    (u : Option String) :
    (jsFalsyStr b.url = true →
      downloadValidate validURL b = HandlerStep.respond 400 urlRequiredMsg) ∧
      (jsFalsyStr u = true → testValidate validURL u = HandlerStep.respond 400 urlRequiredMsg) ∧
      (jsFalsyStr b.url = false → (b.bitrate.getD "128") ≠ "128" →
        (b.bitrate.getD "128") ≠ "192" →
        downloadValidate validURL b = HandlerStep.respond 400 invalidBitrateMsg) ∧
      (jsFalsyStr b.url = false →
        ((b.bitrate.getD "128") = "128" ∨ (b.bitrate.getD "128") = "192") →
        (b.sampleRate.getD "22050") ≠ "16000" → (b.sampleRate.getD "22050") ≠ "22050" →
        (b.sampleRate.getD "22050") ≠ "44100" →
        downloadValidate validURL b = HandlerStep.respond 400 invalidSampleRateMsg) ∧
      (urlRequiredMsg ≠ invalidBitrateMsg ∧ urlRequiredMsg ≠ invalidSampleRateMsg ∧
        invalidBitrateMsg ≠ invalidSampleRateMsg) := by
  refine ⟨?_, ?_, ?_, ?_, by decide⟩
  · intro h
    simp only [downloadValidate]
    rw [if_pos h]
  · intro h
    simp only [testValidate]
    rw [if_pos h]
  · intro hurl hb1 hb2
    simp only [downloadValidate]
    rw [if_neg (by simp [hurl])]
    rw [if_pos (by simp [hb1, hb2])]
  · intro hurl hb hs1 hs2 hs3
    simp only [downloadValidate]
    rw [if_neg (by simp [hurl])]
    rw [if_neg (by rcases hb with h | h <;> simp [h])]
    rw [if_pos (by simp [hs1, hs2, hs3])]

/-- Witness for C8 at concrete inputs. -/
theorem validation_contract_witness :
    downloadValidate (fun _ => true) { url := none, bitrate := none, sampleRate := none } =
        HandlerStep.respond 400 urlRequiredMsg ∧
      testValidate (fun _ => true) (some "") = HandlerStep.respond 400 urlRequiredMsg ∧
      downloadValidate (fun _ => true)
          { url := some "https://youtu.be/x", bitrate := some "999", sampleRate := none } =
        HandlerStep.respond 400 invalidBitrateMsg ∧
      downloadValidate (fun _ => true)
          { url := some "https://youtu.be/x", bitrate := some "192",
            sampleRate := some "8000" } =
        HandlerStep.respond 400 invalidSampleRateMsg :=
  ⟨(validation_contract (fun _ => true)
      { url := none, bitrate := none, sampleRate := none } none).1 (by decide),
    (validation_contract (fun _ => true)
      { url := none, bitrate := none, sampleRate := none } (some "")).2.1 (by decide),
    (validation_contract (fun _ => true)
      { url := some "https://youtu.be/x", bitrate := some "999", sampleRate := none }
      none).2.2.1 (by decide) (by decide) (by decide),
    (validation_contract (fun _ => true)
      { url := some "https://youtu.be/x", bitrate := some "192", sampleRate := some "8000" }
      none).2.2.2.1 (by decide) (by decide) (by decide) (by decide) (by decide)⟩

/-- A byte buffer together with its declared media type. -/
structure MediaBlob where
  bytes : List Nat
  mediaType : String
deriving DecidableEq, Repr

/-- One run of the client conversion stage: the produced blob and the
progress checkpoints delivered to the callback, in order. -/
structure ConversionRun where
  result : MediaBlob
  progressEvents : List Nat
deriving DecidableEq, Repr

/-- The client conversion stage: report the four synthetic checkpoints
(the fixed delays between them carry no data), then relabel the unchanged
byte buffer as mpeg audio. Both the normal path and the fallback path of the
source resolve, so the stage never rejects; the quality parameters are only
logged. -/
def convertToMp3 (audioBuffer : List Nat) (bitrate sampleRate : String)
    (oldPhoneMode : Bool) : ConversionRun :=
  let ev1 : List Nat := [20]
  let ev2 : List Nat := ev1 ++ [50]
  let ev3 : List Nat := ev2 ++ [80]
  let ev4 : List Nat := ev3 ++ [100]
  let _ := bitrate
  let _ := sampleRate
  let _ := oldPhoneMode
  { result := { bytes := audioBuffer, mediaType := "audio/mpeg" },
    progressEvents := ev4 }

/-- C9: for every byte buffer and quality parameters the conversion stage
returns the input bytes unchanged with the declared media type relabeled to
mpeg audio, and reports exactly the checkpoints 20, 50, 80, 100 in strictly
increasing order; as a total function it never rejects. -/
theorem convertToMp3_passthrough (buf : List Nat) (br sr : String) (opm : Bool) :
    (convertToMp3 buf br sr opm).result.bytes = buf ∧
      (convertToMp3 buf br sr opm).result.mediaType = "audio/mpeg" ∧
      (convertToMp3 buf br sr opm).progressEvents = [20, 50, 80, 100] ∧
      List.Chain' (fun a b => a < b) (convertToMp3 buf br sr opm).progressEvents := by
  refine ⟨rfl, rfl, rfl, ?_⟩
  show List.Chain' (fun a b => a < b) [20, 50, 80, 100]
  rw [List.chain'_cons, List.chain'_cons, List.chain'_cons]
  exact ⟨by omega, by omega, by omega, List.chain'_singleton 100⟩
